import Mathlib

/-!
# Verification of the wallet key-management and encrypted secure-storage subsystem

Shallow embedding of the repository's wallet/crypto/storage code:

* `MnemonicUtils` (src/src/utils/mnemonic.utils.ts): `generateMnemonic`,
  `validateMnemonic`, `normalizeMnemonic`, helpers.
* `EncryptionService` (src/src/services/encryption.service.ts):
  `getOrCreateMasterKey`, `deriveKey`, `encryptData`, `decryptData`.
* `KeyStorageService` (src/unnamed/part_004, keyStorage.service.ts):
  `storeSecure`, `retrieveSecure`, `deleteSecure`, `exists`.
* `WalletService` (src/unnamed/part_006, wallet.service.ts): `createWallet`,
  `recoverWallet`, `hasStoredWallet`, `deleteStoredWallet`,
  `storeWalletSecurely`.

JavaScript strings are embedded as `List Char` (a JS string is its sequence
of characters); machine bytes are `Nat` values `< 256`; fallible operations
return `Option`/structured results, mirroring the source's result objects.

External library primitives that are not part of this repository (the
`bip39`/`@scure/bip39` internals, CryptoJS AES/PBKDF2, `JSON`, the Aptos SDK
account generator, the OS `SecureStore`) are modelled from the spec: the
BIP-39 encode/decode pipeline is implemented from §4.1 of the spec
(entropy ‖ SHA-256 checksum, 11-bit groups over a fixed 2048-word list),
with the SHA-256 compression itself and the block cipher / KDF / JSON codec
taken as explicit function parameters, since no claim depends on their
internal values — only on their stated contracts, which appear as
hypotheses.
-/

namespace Wallet

/-! # Definitions -/

/-! ## Characters, whitespace, trim and split (JS string semantics) -/

/-- JS whitespace as used by `String.prototype.trim` and `\s`, restricted to
the characters that actually occur in this subsystem's inputs. -/
def isWs (c : Char) : Bool :=
  c == ' ' || c == '\t' || c == '\n' || c == '\r'

/-- `String.prototype.trim()`: drop whitespace from both ends. -/
def trimChars (l : List Char) : List Char :=
  ((l.dropWhile isWs).reverse.dropWhile isWs).reverse

/-- `str.split(/\s+/)` on an already-trimmed string: maximal runs of
non-whitespace characters (empty pieces produced by consecutive separators
are collapsed, as the regex `\s+` does). -/
def wsTokens (l : List Char) : List (List Char) :=
  (l.splitOnP isWs).filter (· ≠ [])

/-- `Array.prototype.join(' ')`. -/
def joinSpace : List (List Char) → List Char
  | [] => []
  | [w] => w
  | w :: ws => w ++ ' ' :: joinSpace ws

/-- `str.toLowerCase()`, character-wise. -/
def lowerChars (l : List Char) : List Char := l.map Char.toLower

/-! ## Bit-level helpers for the BIP-39 pipeline -/

/-- Interpret a bit list (most significant bit first) as a natural number. -/
def bitsToNat (bs : List Bool) : Nat :=
  bs.foldl (fun a b => 2 * a + (if b then 1 else 0)) 0

/-- The `w`-bit big-endian representation of `n % 2^w`. -/
def natToBits : Nat → Nat → List Bool
  | 0, _ => []
  | w + 1, n => natToBits w (n / 2) ++ [n % 2 == 1]

/-- Split a list into consecutive groups of `k` elements (`k = 0` groups of
one element; only used with `k = 11`). -/
def chunks (k : Nat) : List α → List (List α)
  | [] => []
  | a :: l => (a :: l.take (k - 1)) :: chunks k (l.drop (k - 1))
  termination_by l => l.length
  decreasing_by simp only [List.length_cons, List.length_drop]; omega

/-! ## The BIP-39 wordlist and word lookup

Modelled from the spec: the spec (§3, §4.1) fixes only that the wordlist is
"a fixed 2048-word list" whose words are looked up by 11-bit index; the
concrete English entries live in the external `@scure/bip39` package, so the
table is represented by an injective, nonempty, whitespace-free encoding of
the index. No claim depends on the concrete spelling of the words. -/

/-- Modelled from the spec: the word at index `n` of the fixed 2048-word
list (injective encoding; the real list's words are likewise pairwise
distinct, nonempty and whitespace-free). -/
def wordOfIndex (n : Nat) : List Char := List.replicate (n + 1) 'a'

/-- Modelled from the spec: the fixed 2048-word list. -/
def wordlist : List (List Char) := (List.range 2048).map wordOfIndex

/-- Index of the first occurrence of `w`, as `Array.prototype.indexOf`
(`none` when absent). -/
def wordIndex? (w : List Char) : List (List Char) → Option Nat
  | [] => none
  | x :: xs => if x = w then some 0 else (wordIndex? w xs).map (· + 1)

/-- Look up every word of a phrase in the wordlist; `none` as soon as one
word is unknown. -/
def wordIndices : List (List Char) → Option (List Nat)
  | [] => some []
  | w :: ws =>
    match wordIndex? w wordlist, wordIndices ws with
    | some i, some is => some (i :: is)
    | _, _ => none

/-! ## MnemonicCodec: `generateMnemonic` / `validateMnemonic`
(src/src/utils/mnemonic.utils.ts)

The wrapper logic is translated from `MnemonicUtils`; the inner
`generateMnemonic`/`validateMnemonic` of `@scure/bip39` are modelled from
the spec §4.1 (entropy ‖ SHA-256-checksum, 11-bit groups, wordlist lookup,
checksum recomputation), with the SHA-256 function itself an explicit
parameter since no claim depends on its values. Error strings of the source
are represented by the constructors of `VError`. -/

/-- The validation error messages of `MnemonicUtils.validateMnemonic`:
`emptyPhrase` = "Mnemonic phrase cannot be empty",
`invalidWordCount n` = "Invalid word count: n. Must be 12, 15, 18, 21, or 24 words",
`emptyWord` = "Mnemonic contains empty words",
`invalidBip39` = "Invalid BIP-39 mnemonic phrase". -/
inductive VError where
  | emptyPhrase
  | invalidWordCount (n : Nat)
  | emptyWord
  | invalidBip39
  deriving DecidableEq

/-- Is this error the word-count error? -/
def VError.isWordCountError : VError → Bool
  | .invalidWordCount _ => true
  | _ => false

/-- The `ValidationResult` interface of mnemonic.utils.ts (strength kept in
bits, as the numeric value of the `MnemonicStrength` enum). -/
structure ValidationResult where
  isValid : Bool
  errors : List VError
  wordCount : Option Nat := none
  strength : Option Nat := none
  deriving DecidableEq

/-- `const validWordCounts = [12, 15, 18, 21, 24]`. -/
def validWordCounts : List Nat := [12, 15, 18, 21, 24]

/-- `MnemonicUtils.wordCountToStrength` (switch with default 128). -/
def wordCountToStrength (wordCount : Nat) : Nat :=
  match wordCount with
  | 15 => 160
  | 18 => 192
  | 21 => 224
  | 24 => 256
  | _ => 128

/-- Modelled from the spec: `@scure/bip39.generateMnemonic` word
construction — append a `strength/32`-bit SHA-256 checksum to the entropy,
split into 11-bit groups, map each group to its wordlist entry. -/
def mnemonicWordsOfEntropy (sha256 : List Bool → List Bool)
    (entropy : List Bool) : List (List Char) :=
  let checksum := (sha256 entropy).take (entropy.length / 32)
  (chunks 11 (entropy ++ checksum)).map (fun c => wordOfIndex (bitsToNat c))

/-- Modelled from the spec: `@scure/bip39.generateMnemonic` — the phrase is
the words joined by single spaces. -/
def bip39Generate (sha256 : List Bool → List Bool) (entropy : List Bool) :
    List Char :=
  joinSpace (mnemonicWordsOfEntropy sha256 entropy)

/-- Modelled from the spec: `@scure/bip39.validateMnemonic` — split into
words, require a supported word count, look every word up in the wordlist,
reassemble the 11-bit groups, and compare the trailing `1/33` of the bits
against the recomputed SHA-256 checksum of the leading entropy. -/
def bip39Validate (sha256 : List Bool → List Bool) (phrase : List Char) :
    Bool :=
  let ws := wsTokens phrase
  if ws.length ∈ validWordCounts then
    match wordIndices ws with
    | none => false
    | some idxs =>
      let bits := (idxs.map (natToBits 11)).flatten
      let cs := bits.length / 33
      bits.drop (bits.length - cs) == (sha256 (bits.take (bits.length - cs))).take cs
  else false

/-- The `MnemonicInfo` of `MnemonicUtils.generateMnemonic` (language and the
placeholder entropy string omitted; `wordCount` is
`mnemonic.split(' ').length` as in the source). -/
structure MnemonicInfo where
  mnemonic : List Char
  strength : Nat
  wordCount : Nat
  deriving DecidableEq

/-- `MnemonicUtils.generateMnemonic` (src/src/utils/mnemonic.utils.ts):
generate a phrase from the CSPRNG-drawn `entropy` (the random draw is an
explicit argument) and report the word count of the produced phrase. -/
def generateMnemonic (sha256 : List Bool → List Bool) (strength : Nat)
    (entropy : List Bool) : MnemonicInfo :=
  let m := bip39Generate sha256 entropy
  { mnemonic := m, strength := strength, wordCount := (m.splitOn ' ').length }

/-- `MnemonicUtils.validateMnemonic` (src/src/utils/mnemonic.utils.ts):
trim; empty → error; split on whitespace; word count must be
12/15/18/21/24; no empty words; then BIP-39 validation. Mirrors the
source's early returns and error accumulation order. -/
def validateMnemonic (sha256 : List Bool → List Bool) (mnemonic : List Char) :
    ValidationResult :=
  let trimmed := trimChars mnemonic
  if trimmed = [] then
    { isValid := false, errors := [VError.emptyPhrase] }
  else
    let words := wsTokens trimmed
    let wordCount := words.length
    let countErrors :=
      if wordCount ∈ validWordCounts then [] else [VError.invalidWordCount wordCount]
    let emptyErrors :=
      if words.any (fun w => trimChars w = []) then [VError.emptyWord] else []
    let errors := countErrors ++ emptyErrors
    if errors ≠ [] then { isValid := false, errors := errors }
    else if bip39Validate sha256 trimmed then
      { isValid := true, errors := [], wordCount := some wordCount,
        strength := some (wordCountToStrength wordCount) }
    else { isValid := false, errors := [VError.invalidBip39] }

/-- `MnemonicUtils.normalizeMnemonic`: trim, lowercase, collapse internal
whitespace runs to single spaces. -/
def normalizeMnemonic (m : List Char) : List Char :=
  joinSpace (wsTokens (lowerChars (trimChars m)))

/-- The spec's table strength ↦ word count (128→12, 160→15, 192→18,
224→21, 256→24). -/
def strengthWordCount : Nat → Nat
  | 128 => 12
  | 160 => 15
  | 192 => 18
  | 224 => 21
  | 256 => 24
  | _ => 0

/-- A stand-in SHA-256 used only to instantiate witnesses (any function of
the right output length works, since no claim depends on hash values). -/
def constSha256 : List Bool → List Bool := fun _ => List.replicate 256 false

/-! ## KeyStorageService (src/unnamed/part_004, keyStorage.service.ts)

The OS `expo-secure-store` is modelled as a map from (prefixed) storage
keys to stored entries; its own AES layer (`this.encrypt`/`this.decrypt`
with the device key, CryptoJS) is external and appears as the `ksEnc` /
`ksDec` function parameters. A `setItemAsync` failure (the OS keystore
throwing) is modelled by the `ok : Bool` outcome parameter: `storeSecure`
returns `none` exactly when the underlying write throws. -/

/-- The payload part of the serialized `StoredData`: either the
`encryptedData` field (KeyStorage-layer encryption) or the plain `data`
field. -/
inductive StoredPayload where
  | encrypted (blob : List Char)
  | plain (value : List Char)
  deriving DecidableEq

/-- A stored blob: the `StoredData` JSON (`timestamp`, `version` and one of
`encryptedData`/`data`) together with the `requireAuthentication` option it
was written with. -/
structure StoredEntry where
  payload : StoredPayload
  timestamp : List Char
  version : List Char
  requireAuth : Bool

/-- The OS secure store: prefixed storage key ↦ stored entry. -/
def Store := List Char → Option StoredEntry

/-- `const STORAGE_PREFIX = 'astrophysicals_secure_'`. -/
def STORAGE_PREFIX : List Char := "astrophysicals_secure_".data

/-- The full storage key `STORAGE_PREFIX + key`. -/
def storageKey (key : List Char) : List Char := STORAGE_PREFIX ++ key

/-- `KeyStorageService.storeSecure`: wrap the value (encrypting it with the
device key when `encrypt`), stamp it, and write it through to the OS store
under the prefixed key with the `requireAuthentication` flag; `none` when
the OS write throws. -/
def storeSecure (ksEnc : List Char → List Char) (now : List Char) (ok : Bool)
    (st : Store) (key value : List Char)
    (requireAuthentication : Bool) (encrypt : Bool) : Option Store :=
  if ok then
    some (fun k =>
      if k = storageKey key then
        some { payload := if encrypt then .encrypted (ksEnc value)
                          else .plain value,
               timestamp := now, version := "1.0".data,
               requireAuth := requireAuthentication }
      else st k)
  else none

/-- `KeyStorageService.retrieveSecure`: read the raw blob; absent → `null`;
an `encryptedData` payload is decrypted with the device key; a plain
payload is returned via `parsedData.data || null` (so the empty string
reads back as `null`). -/
def retrieveSecure (ksDec : List Char → List Char) (st : Store)
    (key : List Char) : Option (List Char) :=
  match st (storageKey key) with
  | none => none
  | some e =>
    match e.payload with
    | .encrypted blob => some (ksDec blob)
    | .plain v => if v = [] then none else some v

/-- `KeyStorageService.deleteSecure`: remove the prefixed key. -/
def deleteSecure (st : Store) (key : List Char) : Store :=
  fun k => if k = storageKey key then none else st k

/-- `KeyStorageService.exists`: `getItemAsync(...) !== null`. -/
def existsKey (st : Store) (key : List Char) : Bool :=
  (st (storageKey key)).isSome

/-! ## EncryptionService master key management
(src/src/services/encryption.service.ts) -/

/-- `ENCRYPTION_KEY_ID = 'user_data_encryption_key'`. -/
def ENCRYPTION_KEY_ID : List Char := "user_data_encryption_key".data

/-- `EncryptionService.getOrCreateMasterKey`: try
`retrieveSecure(ENCRYPTION_KEY_ID)`; a truthy stored key is returned as-is;
otherwise a fresh CSPRNG key (the explicit `freshKey` draw) is persisted
via `storeSecure(..., { requireAuthentication: true, encrypt: false })` and
returned. `none` models the rethrown storage failure. -/
def getOrCreateMasterKey (ksDec ksEnc : List Char → List Char)
    (now : List Char) (ok : Bool) (freshKey : List Char) (st : Store) :
    Option (List Char × Store) :=
  match retrieveSecure ksDec st ENCRYPTION_KEY_ID with
  | some k =>
    if k = [] then
      (storeSecure ksEnc now ok st ENCRYPTION_KEY_ID freshKey true false).map
        (fun st' => (freshKey, st'))
    else some (k, st)
  | none =>
    (storeSecure ksEnc now ok st ENCRYPTION_KEY_ID freshKey true false).map
      (fun st' => (freshKey, st'))

/-! ## WalletService (src/unnamed/part_006, wallet.service.ts)

`Account.generate()` of the Aptos SDK is an external CSPRNG draw; the drawn
account is an explicit argument. `JSON.stringify` of the wallet record is
the external `serialize` parameter. -/

/-- The `WalletInfo` returned by `createWallet`/`recoverWallet`:
`{ address, mnemonic }` and nothing else. -/
structure WalletInfo where
  address : List Char
  mnemonic : List Char
  deriving DecidableEq

/-- A fresh random account as drawn by `Account.generate()`. -/
structure AptosAccount where
  address : List Char
  publicKey : List Char
  deriving DecidableEq

/-- The `dataToStore` record of `WalletService.storeWalletSecurely`. -/
structure WalletRecord where
  mnemonic : List Char
  address : List Char
  createdAt : List Char
  version : List Char

/-- The `WalletRecoveryResult` of `WalletService.recoverWallet`. -/
structure WalletRecoveryResult where
  success : Bool
  wallet : Option WalletInfo
  errors : Option (List VError)
  deriving DecidableEq

/-- `WalletService.storeWalletSecurely`: store the serialized wallet record
under `wallet_<address>` with `requireAuthentication: true, encrypt: false`;
a storage failure is caught, logged and swallowed — the store is left as it
was and no error reaches the caller. -/
def storeWalletSecurely (serialize : WalletRecord → List Char)
    (ksEnc : List Char → List Char) (now : List Char) (ok : Bool)
    (st : Store) (address mnemonic : List Char) : Store :=
  match storeSecure ksEnc now ok st ("wallet_".data ++ address)
      (serialize { mnemonic := mnemonic, address := address,
                   createdAt := now, version := "1.0".data })
      true false with
  | some st' => st'
  | none => st

/-- `WalletService.createWallet`: generate a mnemonic (the `mnemonicInfo`
draw), generate a fresh random Aptos account (the `account` draw), attempt
to persist, and return `{ address, mnemonic }`. -/
def createWallet (serialize : WalletRecord → List Char)
    (ksEnc : List Char → List Char) (now : List Char) (ok : Bool)
    (st : Store) (mnemonicInfo : MnemonicInfo) (account : AptosAccount) :
    WalletInfo × Store :=
  let st' := storeWalletSecurely serialize ksEnc now ok st account.address
    mnemonicInfo.mnemonic
  ({ address := account.address, mnemonic := mnemonicInfo.mnemonic }, st')

/-- `WalletService.recoverWallet`: validate the phrase (structured errors on
failure); on success generate a **fresh random** account (`Account.generate()`
— the source's TODO notes that mnemonic-to-account derivation is not
implemented), store the normalized mnemonic under the random account's
address, and return that address. -/
def recoverWallet (sha256 : List Bool → List Bool)
    (serialize : WalletRecord → List Char) (ksEnc : List Char → List Char)
    (now : List Char) (ok : Bool) (st : Store)
    (mnemonic : List Char) (account : AptosAccount) :
    WalletRecoveryResult × Store :=
  let validation := validateMnemonic sha256 mnemonic
  if validation.isValid = false then
    ({ success := false, wallet := none, errors := some validation.errors },
      st)
  else
    let st' := storeWalletSecurely serialize ksEnc now ok st account.address
      (normalizeMnemonic mnemonic)
    ({ success := true,
       wallet := some { address := account.address,
                        mnemonic := normalizeMnemonic mnemonic },
       errors := none }, st')

/-- `WalletService.hasStoredWallet`: `keyStorage.exists('wallet_' + address)`. -/
def hasStoredWallet (st : Store) (address : List Char) : Bool :=
  existsKey st ("wallet_".data ++ address)

/-- `WalletService.deleteStoredWallet`: `keyStorage.deleteSecure('wallet_' + address)`. -/
def deleteStoredWallet (st : Store) (address : List Char) : Store :=
  deleteSecure st ("wallet_".data ++ address)

/-- The mnemonic generated from the all-zero 128-bit entropy (a concrete
valid mnemonic used to exercise `recoverWallet`). -/
def sampleMnemonic : List Char :=
  (generateMnemonic constSha256 128 (List.replicate 128 false)).mnemonic

/-! ## EnvelopeCipher: `encryptData` / `decryptData`
(src/src/services/encryption.service.ts)

Bytes are `Nat` values; a block is a 16-byte list. The external CryptoJS
primitives are modelled from the spec (§4.3): the block cipher appears as
the function parameters `E`/`D` (AES-256 encryption/decryption of one
block), the key derivation `CryptoJS.PBKDF2(masterKey, salt, {SHA256,
10000 iterations})` as the parameter `kdf`, the UTF-8 codec of
`CryptoJS.enc.Utf8` as `utf8Enc`/`utf8Dec`, and `JSON.stringify`/
`JSON.parse` as `stringify`/`parse`; their contracts (inverse properties,
block-size preservation) appear as hypotheses of the theorems. The CBC mode
and PKCS7 padding are implemented concretely. -/

/-- Byte-wise xor of two equal-length byte lists. -/
def xorBytes (a b : List Nat) : List Nat := List.zipWith (· ^^^ ·) a b

/-- CBC encryption: `cᵢ = E(key, pᵢ ⊕ cᵢ₋₁)` with `c₀ = iv`. -/
def cbcEncrypt (E : List Nat → List Nat → List Nat) (key : List Nat) :
    List Nat → List (List Nat) → List (List Nat)
  | _, [] => []
  | prev, b :: bs =>
    let c := E key (xorBytes prev b)
    c :: cbcEncrypt E key c bs

/-- CBC decryption: `pᵢ = D(key, cᵢ) ⊕ cᵢ₋₁` with `c₀ = iv`. -/
def cbcDecrypt (D : List Nat → List Nat → List Nat) (key : List Nat) :
    List Nat → List (List Nat) → List (List Nat)
  | _, [] => []
  | prev, c :: cs => xorBytes prev (D key c) :: cbcDecrypt D key c cs

/-- PKCS7 padding to 16-byte blocks. -/
def pkcs7pad (data : List Nat) : List Nat :=
  let p := 16 - data.length % 16
  data ++ List.replicate p p

/-- PKCS7 unpadding as CryptoJS implements it: read the final byte and
truncate that many bytes. -/
def pkcs7unpad (data : List Nat) : List Nat :=
  data.take (data.length - (data.getLast?.getD 0))

/-- The `EncryptedData` interface `{ data, iv, salt }` (ciphertext as
blocks; iv and salt as byte lists). -/
structure EncryptedData where
  data : List (List Nat)
  iv : List Nat
  salt : List Nat
  deriving DecidableEq

/-- The `EncryptionResult` of `encryptData`. -/
inductive EncryptionResult where
  | ok (encryptedData : EncryptedData)
  | err (msg : List Char)
  deriving DecidableEq

/-- The `DecryptionResult<T>` of `decryptData`. -/
inductive DecryptionResult (α : Type) where
  | ok (data : α)
  | err (msg : List Char)

/-- The record built by the success path of `EncryptionService.encryptData`:
derive the record key from the master key and the fresh salt, JSON-encode,
UTF-8-encode, PKCS7-pad, AES-CBC-encrypt under the fresh iv. -/
def encryptRecord {α : Type} (kdf : List Char → List Nat → List Nat)
    (E : List Nat → List Nat → List Nat) (utf8Enc : List Char → List Nat)
    (stringify : α → List Char) (masterKey : List Char) (v : α)
    (salt iv : List Nat) : EncryptedData :=
  let derivedKey := kdf masterKey salt
  let blocks := chunks 16 (pkcs7pad (utf8Enc (stringify v)))
  { data := cbcEncrypt E derivedKey iv blocks, iv := iv, salt := salt }

/-- `EncryptionService.encryptData`: reject `null`/`undefined`, otherwise
encrypt with fresh salt and iv (the two CSPRNG draws are explicit
arguments). -/
def encryptData {α : Type} (kdf : List Char → List Nat → List Nat)
    (E : List Nat → List Nat → List Nat) (utf8Enc : List Char → List Nat)
    (stringify : α → List Char) (masterKey : List Char) (v : Option α)
    (salt iv : List Nat) : EncryptionResult :=
  match v with
  | none => .err "Cannot encrypt null or undefined data".data
  | some v => .ok (encryptRecord kdf E utf8Enc stringify masterKey v salt iv)

/-- `EncryptionService.decryptData`: check the record's fields are present
(truthy), re-derive the record key from the stored salt, AES-CBC-decrypt,
unpad, UTF-8-decode (a malformed-UTF-8 throw becomes the catch branch),
reject an empty plaintext string, and `JSON.parse` (a parse throw becomes
the catch branch). -/
def decryptData {α : Type} (kdf : List Char → List Nat → List Nat)
    (D : List Nat → List Nat → List Nat)
    (utf8Dec : List Nat → Option (List Char))
    (parse : List Char → Option α) (masterKey : List Char)
    (ed : EncryptedData) : DecryptionResult α :=
  if ed.data = [] ∨ ed.iv = [] ∨ ed.salt = [] then
    .err "Invalid encrypted data format".data
  else
    let derivedKey := kdf masterKey ed.salt
    let padded := (cbcDecrypt D derivedKey ed.iv ed.data).flatten
    match utf8Dec (pkcs7unpad padded) with
    | none => .err "Decryption failed: malformed UTF-8 data".data
    | some s =>
      if s = [] then
        .err "Decryption failed - invalid key or corrupted data".data
      else
        match parse s with
        | some v => .ok v
        | none => .err "Decryption failed: JSON parse error".data

/-! ## Toy primitives instantiating witnesses and the C4 counterexample -/

/-- Toy KDF instantiating the witnesses. -/
def toyKdf : List Char → List Nat → List Nat := fun _ _ => []

/-- Toy block cipher (identity) instantiating the witnesses. -/
def toyCipher : List Nat → List Nat → List Nat := fun _ b => b

/-- Toy UTF-8 encoder instantiating the witnesses. -/
def toyUtf8Enc : List Char → List Nat := fun _ => [0]

/-- Toy UTF-8 decoder instantiating the witnesses. -/
def toyUtf8Dec : List Nat → Option (List Char) := fun _ => some ['t']

/-- Toy JSON serializer instantiating the witnesses. -/
def toyStringify : Bool → List Char := fun _ => ['t']

/-- Toy JSON parser instantiating the witnesses. -/
def toyParse : List Char → Option Bool := fun _ => some true

/-- A xor-with-padded-key block cipher: a per-key permutation used to
instantiate the C4 counterexample (it is injective for every key). -/
def toyCipherXor (k b : List Nat) : List Nat :=
  xorBytes (k ++ List.replicate (b.length - k.length) 0) b

/-! # Theorems -/

theorem bitsToNat_append (bs : List Bool) (b : Bool) :
    bitsToNat (bs ++ [b]) = 2 * bitsToNat bs + (if b then 1 else 0) := by
  simp [bitsToNat, List.foldl_append]

theorem natToBits_bitsToNat (bs : List Bool) :
    natToBits bs.length (bitsToNat bs) = bs := by
  induction bs using List.reverseRecOn with
  | nil => rfl
  | append_singleton bs b ih =>
    rw [List.length_append, List.length_singleton, bitsToNat_append, natToBits]
    have h2 : (2 * bitsToNat bs + (if b then 1 else 0)) / 2 = bitsToNat bs := by
      cases b with
      | true => show (2 * bitsToNat bs + 1) / 2 = bitsToNat bs; omega
      | false => show (2 * bitsToNat bs + 0) / 2 = bitsToNat bs; omega
    have h3 : ((2 * bitsToNat bs + (if b then 1 else 0)) % 2 == 1) = b := by
      cases b with
      | true =>
        show ((2 * bitsToNat bs + 1) % 2 == 1) = true
        simp [Nat.mul_add_mod]
      | false =>
        show ((2 * bitsToNat bs + 0) % 2 == 1) = false
        simp [Nat.mul_add_mod]
    rw [h2, h3, ih]

theorem length_natToBits (w n : Nat) : (natToBits w n).length = w := by
  induction w generalizing n with
  | zero => rfl
  | succ w ih => simp [natToBits, ih]

theorem bitsToNat_lt (bs : List Bool) : bitsToNat bs < 2 ^ bs.length := by
  induction bs using List.reverseRecOn with
  | nil => simp [bitsToNat]
  | append_singleton bs b ih =>
    rw [bitsToNat_append, List.length_append, List.length_singleton, pow_succ]
    cases b <;> simp <;> omega

theorem chunks_nil (k : Nat) : chunks k ([] : List α) = [] := by
  simp [chunks]

theorem chunks_cons (k : Nat) (a : α) (l : List α) :
    chunks k (a :: l) = (a :: l.take (k - 1)) :: chunks k (l.drop (k - 1)) := by
  simp [chunks]

theorem chunks_append (k : Nat) (c rest : List α) (hlen : c.length = k)
    (hk : 0 < k) : chunks k (c ++ rest) = c :: chunks k rest := by
  match c with
  | [] => simp at hlen; omega
  | a :: c' =>
    rw [List.cons_append, chunks_cons]
    have hc' : c'.length = k - 1 := by simp at hlen; omega
    rw [← hc', List.take_left, List.drop_left]

theorem flatten_chunks (k : Nat) (l : List α) : (chunks k l).flatten = l := by
  have H : ∀ (n : Nat) (l : List α), l.length ≤ n → (chunks k l).flatten = l := by
    intro n
    induction n with
    | zero =>
      intro l hl
      have : l = [] := List.eq_nil_of_length_eq_zero (by omega)
      subst this; simp [chunks_nil]
    | succ n ih =>
      intro l hl
      match l with
      | [] => simp [chunks_nil]
      | a :: l' =>
        rw [chunks_cons, List.flatten_cons]
        rw [ih _ (by simp only [List.length_drop]; simp at hl; omega)]
        rw [List.cons_append, List.take_append_drop]
  exact H l.length l le_rfl

theorem chunks_flatten (k : Nat) (cs : List (List α)) (hk : 0 < k)
    (h : ∀ c ∈ cs, c.length = k) : chunks k cs.flatten = cs := by
  induction cs with
  | nil => simp [chunks_nil]
  | cons c cs ih =>
    rw [List.flatten_cons, chunks_append k c _ (h c (by simp)) hk]
    rw [ih (fun c hc => h c (by simp [hc]))]

theorem joinSpace_cons (w : List Char) (ws : List (List Char)) (h : ws ≠ []) :
    joinSpace (w :: ws) = w ++ ' ' :: joinSpace ws := by
  cases ws with
  | nil => exact absurd rfl h
  | cons w2 ws2 => rfl

theorem joinSpace_ne_nil (w : List Char) (ws : List (List Char)) (hw : w ≠ []) :
    joinSpace (w :: ws) ≠ [] := by
  cases ws with
  | nil => exact hw
  | cons w2 ws2 => simp [joinSpace, hw]

theorem splitOnP_joinSpace (p : Char → Bool) (hp : p ' ' = true)
    (ws : List (List Char)) (hne : ws ≠ [])
    (h : ∀ w ∈ ws, ∀ c ∈ w, ¬ p c) :
    (joinSpace ws).splitOnP p = ws := by
  induction ws with
  | nil => exact absurd rfl hne
  | cons w ws ih =>
    cases ws with
    | nil => exact List.splitOnP_eq_single p w (h w (by simp))
    | cons w2 ws2 =>
      rw [joinSpace_cons w _ (by simp)]
      rw [List.splitOnP_first p w (h w (by simp)) ' ' hp]
      rw [ih (by simp) (fun u hu => h u (List.mem_cons_of_mem _ hu))]

theorem wsTokens_joinSpace (ws : List (List Char)) (hne : ws ≠ [])
    (hnil : ∀ w ∈ ws, w ≠ []) (hws : ∀ w ∈ ws, ∀ c ∈ w, isWs c = false) :
    wsTokens (joinSpace ws) = ws := by
  unfold wsTokens
  rw [splitOnP_joinSpace isWs (by decide) ws hne
    (fun w hw c hc => by simp [hws w hw c hc])]
  exact List.filter_eq_self.mpr (fun w hw => by simpa using hnil w hw)

theorem splitOn_space_joinSpace (ws : List (List Char)) (hne : ws ≠ [])
    (hws : ∀ w ∈ ws, ∀ c ∈ w, isWs c = false) :
    (joinSpace ws).splitOn ' ' = ws := by
  show (joinSpace ws).splitOnP (· == ' ') = ws
  refine splitOnP_joinSpace _ (by decide) ws hne (fun w hw c hc => ?_)
  intro hbeq
  have hw' : isWs c = true := by simp [isWs, hbeq]
  rw [hws w hw c hc] at hw'
  exact absurd hw' (by simp)

theorem dropWhile_eq_self_of_head (p : Char → Bool) (l : List Char)
    (h : ∀ c, l.head? = some c → p c = false) : l.dropWhile p = l := by
  cases l with
  | nil => rfl
  | cons a l' => rw [List.dropWhile_cons, h a rfl]; simp

theorem trimChars_eq_self (l : List Char)
    (h1 : ∀ c, l.head? = some c → isWs c = false)
    (h2 : ∀ c, l.getLast? = some c → isWs c = false) : trimChars l = l := by
  unfold trimChars
  rw [dropWhile_eq_self_of_head isWs l h1]
  rw [dropWhile_eq_self_of_head isWs l.reverse
    (fun c hc => h2 c (by rwa [List.head?_reverse] at hc))]
  exact List.reverse_reverse l

theorem head?_joinSpace (w : List Char) (ws : List (List Char)) (hw : w ≠ []) :
    (joinSpace (w :: ws)).head? = w.head? := by
  cases ws with
  | nil => rfl
  | cons w2 ws2 =>
    rw [joinSpace_cons w _ (by simp)]
    exact List.head?_append_of_ne_nil w hw

theorem getLast?_joinSpace (w : List Char) (ws : List (List Char))
    (h : ∀ u ∈ (w :: ws), u ≠ []) :
    ∃ u ∈ (w :: ws), (joinSpace (w :: ws)).getLast? = u.getLast? := by
  induction ws generalizing w with
  | nil => exact ⟨w, by simp, rfl⟩
  | cons w2 ws2 ih =>
    obtain ⟨u, hu, he⟩ := ih w2 (fun u hu => h u (List.mem_cons_of_mem _ hu))
    refine ⟨u, List.mem_cons_of_mem _ hu, ?_⟩
    rw [joinSpace_cons w _ (by simp)]
    rw [List.getLast?_append_cons w ' ' (joinSpace (w2 :: ws2))]
    rw [show (' ' :: joinSpace (w2 :: ws2)) = [' '] ++ joinSpace (w2 :: ws2) from rfl]
    rw [List.getLast?_append_of_ne_nil [' ']
      (joinSpace_ne_nil w2 ws2 (h w2 (by simp)))]
    exact he

theorem length_chunks (k : Nat) (hk : 0 < k) (m : Nat) :
    ∀ l : List α, l.length = k * m → (chunks k l).length = m := by
  induction m with
  | zero =>
    intro l hl
    have : l = [] := List.eq_nil_of_length_eq_zero (by omega)
    subst this; simp [chunks_nil]
  | succ m ih =>
    intro l hl
    have hkle : k ≤ l.length := by
      rw [hl]; exact Nat.le_mul_of_pos_right k (Nat.succ_pos m)
    have htk : (l.take k).length = k := by
      rw [List.length_take]; omega
    rw [← List.take_append_drop k l, chunks_append k _ _ htk hk]
    have : (l.drop k).length = k * m := by
      rw [List.length_drop, hl, Nat.mul_succ]; omega
    simp [ih _ this]

theorem length_mem_chunks (k : Nat) (hk : 0 < k) (m : Nat) :
    ∀ l : List α, l.length = k * m → ∀ c ∈ chunks k l, c.length = k := by
  induction m with
  | zero =>
    intro l hl
    have : l = [] := List.eq_nil_of_length_eq_zero (by omega)
    subst this; simp [chunks_nil]
  | succ m ih =>
    intro l hl
    have hkle : k ≤ l.length := by
      rw [hl]; exact Nat.le_mul_of_pos_right k (Nat.succ_pos m)
    have htk : (l.take k).length = k := by
      rw [List.length_take]; omega
    rw [← List.take_append_drop k l, chunks_append k _ _ htk hk]
    intro c hc
    rcases List.mem_cons.mp hc with h | h
    · rw [h, htk]
    · exact ih (l.drop k)
        (by rw [List.length_drop, hl, Nat.mul_succ]; omega) c h

theorem wordOfIndex_injective : Function.Injective wordOfIndex := by
  intro a b h
  have := congrArg List.length h
  simpa [wordOfIndex] using this

theorem wordOfIndex_ne_nil (n : Nat) : wordOfIndex n ≠ [] := by
  simp [wordOfIndex]

theorem mem_wordOfIndex (n : Nat) (c : Char) (h : c ∈ wordOfIndex n) : c = 'a' :=
  List.eq_of_mem_replicate h

theorem head?_wordOfIndex (n : Nat) : (wordOfIndex n).head? = some 'a' := by
  simp [wordOfIndex, List.replicate_succ]

theorem getLast?_wordOfIndex (n : Nat) : (wordOfIndex n).getLast? = some 'a' := by
  rw [wordOfIndex, List.replicate_succ']
  exact List.getLast?_concat _

theorem trimChars_wordOfIndex (n : Nat) : trimChars (wordOfIndex n) = wordOfIndex n := by
  apply trimChars_eq_self
  · intro c hc; rw [head?_wordOfIndex] at hc
    cases hc; decide
  · intro c hc; rw [getLast?_wordOfIndex] at hc
    cases hc; decide

theorem wordIndex?_range' (g : Nat → List Char)
    (hg : Function.Injective g) :
    ∀ (n s i : Nat), i < n →
      wordIndex? (g (s + i)) ((List.range' s n).map g) = some i := by
  intro n
  induction n with
  | zero => intro s i h; omega
  | succ n ih =>
    intro s i h
    rw [List.range'_succ, List.map_cons, wordIndex?]
    match i with
    | 0 => simp
    | j + 1 =>
      have hne : g s ≠ g (s + (j + 1)) := by
        intro he; have := hg he; omega
      rw [if_neg hne]
      have : s + (j + 1) = (s + 1) + j := by omega
      rw [this, ih (s + 1) j (by omega)]
      rfl

theorem wordIndex?_wordlist (i : Nat) (h : i < 2048) :
    wordIndex? (wordOfIndex i) wordlist = some i := by
  have := wordIndex?_range' wordOfIndex wordOfIndex_injective 2048 0 i h
  simpa [wordlist, List.range_eq_range'] using this

theorem wordIndices_map (idxs : List Nat) (h : ∀ i ∈ idxs, i < 2048) :
    wordIndices (idxs.map wordOfIndex) = some idxs := by
  induction idxs with
  | nil => rfl
  | cons i is ih =>
    rw [List.map_cons, wordIndices,
      wordIndex?_wordlist i (h i (by simp)),
      ih (fun j hj => h j (by simp [hj]))]

theorem generate_valid_core (sha256 : List Bool → List Bool) (s : Nat)
    (entropy : List Bool) (q : Nat)
    (hsha : (sha256 entropy).length = 256)
    (hq : entropy.length = 32 * q) (hq8 : q ≤ 8) (hq0 : 0 < q)
    (hwc : 3 * q ∈ validWordCounts) :
    (generateMnemonic sha256 s entropy).wordCount = 3 * q ∧
    validateMnemonic sha256 (generateMnemonic sha256 s entropy).mnemonic =
      { isValid := true, errors := [], wordCount := some (3 * q),
        strength := some (wordCountToStrength (3 * q)) } := by
  have hqdiv : entropy.length / 32 = q := by
    rw [hq]; exact Nat.mul_div_cancel_left q (by norm_num)
  set ch := (sha256 entropy).take (entropy.length / 32) with hch
  have hchlen : ch.length = q := by
    rw [hch, List.length_take, hsha, hqdiv]; omega
  have hbits : (entropy ++ ch).length = 33 * q := by
    rw [List.length_append, hq, hchlen]; ring
  have hchunks11 : ∀ c ∈ chunks 11 (entropy ++ ch), c.length = 11 :=
    length_mem_chunks 11 (by norm_num) (3 * q) _ (by rw [hbits]; ring)
  have hnwords : (chunks 11 (entropy ++ ch)).length = 3 * q :=
    length_chunks 11 (by norm_num) (3 * q) _ (by rw [hbits]; ring)
  have hwords : mnemonicWordsOfEntropy sha256 entropy =
      (chunks 11 (entropy ++ ch)).map (fun c => wordOfIndex (bitsToNat c)) := rfl
  set words := mnemonicWordsOfEntropy sha256 entropy with hwordsdef
  have hwlen : words.length = 3 * q := by
    rw [hwords, List.length_map, hnwords]
  have hwne : words ≠ [] := by
    intro h; rw [h] at hwlen; simp at hwlen; omega
  have hwshape : ∀ w ∈ words, ∃ n, w = wordOfIndex n := by
    rw [hwords]; intro w hw
    rcases List.mem_map.mp hw with ⟨c, _, hcw⟩
    exact ⟨bitsToNat c, hcw.symm⟩
  have hwnil : ∀ w ∈ words, w ≠ [] := fun w hw => by
    rcases hwshape w hw with ⟨n, rfl⟩; exact wordOfIndex_ne_nil n
  have hwchars : ∀ w ∈ words, ∀ c ∈ w, isWs c = false := fun w hw c hc => by
    rcases hwshape w hw with ⟨n, rfl⟩
    rw [mem_wordOfIndex n c hc]; decide
  obtain ⟨w0, rest, hcons⟩ := List.exists_cons_of_ne_nil hwne
  have hw0 : w0 ∈ words := by rw [hcons]; simp
  have hhead : (joinSpace words).head? = some 'a' := by
    rw [hcons, head?_joinSpace w0 rest (hwnil w0 hw0)]
    rcases hwshape w0 hw0 with ⟨n, hn⟩
    rw [hn]; exact head?_wordOfIndex n
  have hlast : (joinSpace words).getLast? = some 'a' := by
    rw [hcons]
    obtain ⟨u, hu, he⟩ :=
      getLast?_joinSpace w0 rest (fun u hu => hwnil u (hcons ▸ hu))
    rw [he]
    rcases hwshape u (hcons ▸ hu) with ⟨n, hn⟩
    rw [hn]; exact getLast?_wordOfIndex n
  have htrim : trimChars (joinSpace words) = joinSpace words := by
    apply trimChars_eq_self
    · intro c hc; rw [hhead] at hc; cases hc; decide
    · intro c hc; rw [hlast] at hc; cases hc; decide
  have hjne : joinSpace words ≠ [] := by
    rw [hcons]; exact joinSpace_ne_nil w0 rest (hwnil w0 hw0)
  have htok : wsTokens (joinSpace words) = words :=
    wsTokens_joinSpace words hwne hwnil hwchars
  have hsplit : ((joinSpace words).splitOn ' ').length = 3 * q := by
    rw [splitOn_space_joinSpace words hwne hwchars, hwlen]
  have hany : words.any (fun w => trimChars w = []) = false := by
    rw [List.any_eq_false]
    intro w hw
    rcases hwshape w hw with ⟨n, rfl⟩
    simp [trimChars_wordOfIndex, wordOfIndex_ne_nil n]
  have hmapmap : words =
      ((chunks 11 (entropy ++ ch)).map bitsToNat).map wordOfIndex := by
    rw [hwords, List.map_map]; rfl
  have hidx : wordIndices words =
      some ((chunks 11 (entropy ++ ch)).map bitsToNat) := by
    rw [hmapmap]
    apply wordIndices_map
    intro i hi
    rcases List.mem_map.mp hi with ⟨c, hc, rfl⟩
    have hlt := bitsToNat_lt c
    rw [hchunks11 c hc] at hlt
    norm_num at hlt
    exact hlt
  have hbitseq :
      (((chunks 11 (entropy ++ ch)).map bitsToNat).map (natToBits 11)).flatten
        = entropy ++ ch := by
    rw [List.map_map]
    have heach : (chunks 11 (entropy ++ ch)).map (natToBits 11 ∘ bitsToNat) =
        (chunks 11 (entropy ++ ch)).map id :=
      List.map_congr_left (fun c hc => by
        simp only [Function.comp_apply, id]
        rw [← hchunks11 c hc]
        exact natToBits_bitsToNat c)
    rw [heach, List.map_id]
    exact flatten_chunks 11 _
  have hbv : bip39Validate sha256 (joinSpace words) = true := by
    unfold bip39Validate
    simp only [htok, hwlen, hwc, if_true, hidx]
    simp only [hbitseq, hbits]
    have hcs : 33 * q / 33 = q := Nat.mul_div_cancel_left q (by norm_num)
    have hsub : 33 * q - q = entropy.length := by rw [hq]; omega
    simp only [hcs, hsub]
    rw [List.drop_left, List.take_left, hch, hqdiv]
    exact beq_self_eq_true _
  have hmnem : (generateMnemonic sha256 s entropy).mnemonic = joinSpace words :=
    rfl
  constructor
  · show ((joinSpace words).splitOn ' ').length = 3 * q
    exact hsplit
  · rw [hmnem]
    unfold validateMnemonic
    simp only [htrim, hjne, if_neg, htok, hwlen, hwc, if_true, hany,
      Bool.false_eq_true, if_false, List.append_nil, ne_eq,
      not_true_eq_false, hbv]

theorem constSha256_length : ∀ m, (constSha256 m).length = 256 := by
  intro m
  show (List.replicate 256 false).length = 256
  rw [List.length_replicate]

/-- C2: for every supported strength s ∈ {128,160,192,224,256},
`generateMnemonic` produces a mnemonic whose word count is exactly the
count determined by s (128→12, 160→15, 192→18, 224→21, 256→24), and
`validateMnemonic` applied to the generated mnemonic succeeds
(`isValid = true`) reporting that same word count. -/
theorem generate_validate_roundtrip (sha256 : List Bool → List Bool)
    (strength : Nat) (entropy : List Bool)
    (hs : strength ∈ [128, 160, 192, 224, 256])
    (hlen : entropy.length = strength)
    (hsha : ∀ m, (sha256 m).length = 256) :
    (generateMnemonic sha256 strength entropy).wordCount =
      strengthWordCount strength ∧
    (validateMnemonic sha256
      (generateMnemonic sha256 strength entropy).mnemonic).isValid = true ∧
    (validateMnemonic sha256
      (generateMnemonic sha256 strength entropy).mnemonic).wordCount =
      some (strengthWordCount strength) := by
  have hex : ∃ q, strength = 32 * q ∧ q ≤ 8 ∧ 0 < q ∧
      3 * q = strengthWordCount strength ∧ 3 * q ∈ validWordCounts := by
    fin_cases hs
    · exact ⟨4, by norm_num [strengthWordCount, validWordCounts]⟩
    · exact ⟨5, by norm_num [strengthWordCount, validWordCounts]⟩
    · exact ⟨6, by norm_num [strengthWordCount, validWordCounts]⟩
    · exact ⟨7, by norm_num [strengthWordCount, validWordCounts]⟩
    · exact ⟨8, by norm_num [strengthWordCount, validWordCounts]⟩
  obtain ⟨q, h1, h2, h3, h4, h5⟩ := hex
  obtain ⟨hcount, hval⟩ := generate_valid_core sha256 strength entropy q
    (hsha entropy) (by rw [hlen, h1]) h2 h3 h5
  refine ⟨by rw [hcount, h4], by rw [hval], by rw [hval, h4]⟩

/-- Witness for C2 at strength 128 with the all-zero 128-bit entropy. -/
theorem generate_validate_roundtrip_witness :
    (128 ∈ [128, 160, 192, 224, 256]) ∧
    (List.replicate 128 false).length = 128 ∧
    (∀ m, (constSha256 m).length = 256) ∧
    ((generateMnemonic constSha256 128 (List.replicate 128 false)).wordCount =
      strengthWordCount 128 ∧
    (validateMnemonic constSha256
      (generateMnemonic constSha256 128
        (List.replicate 128 false)).mnemonic).isValid = true ∧
    (validateMnemonic constSha256
      (generateMnemonic constSha256 128
        (List.replicate 128 false)).mnemonic).wordCount =
      some (strengthWordCount 128)) :=
  ⟨by decide, by rw [List.length_replicate], constSha256_length,
    generate_validate_roundtrip constSha256 128 (List.replicate 128 false)
      (by decide) (by rw [List.length_replicate]) constSha256_length⟩

/-- C5: `validateMnemonic` is a total function returning a structured
result; it reports `isValid = false` exactly when the error list is
nonempty (each failed check contributes its error), and `isValid = true`
with an empty error list otherwise. -/
theorem validate_total_structured (sha256 : List Bool → List Bool)
    (m : List Char) :
    ((validateMnemonic sha256 m).isValid = true ∧
      (validateMnemonic sha256 m).errors = []) ∨
    ((validateMnemonic sha256 m).isValid = false ∧
      (validateMnemonic sha256 m).errors ≠ []) := by
  simp only [validateMnemonic]
  split
  · exact Or.inr ⟨rfl, by simp⟩
  · split <;> (try split) <;> (try split) <;> (try split)
    all_goals first
      | exact Or.inl ⟨rfl, rfl⟩
      | (next h => exact Or.inr ⟨rfl, h⟩)
      | (next h => simp at h)
      | exact Or.inr ⟨rfl, by simp⟩

/-- C6 counterexample: the all-whitespace phrase `""` has a whitespace-split
word count of 0 ∉ {12,15,18,21,24}, and `validateMnemonic` does reject it
(`isValid = false`), but with the empty-phrase error only — no word-count
error is reported, contradicting the claim as stated. -/
theorem validate_wordcount_error_counterexample :
    (wsTokens (trimChars [])).length ∉ validWordCounts ∧
    (validateMnemonic constSha256 []).isValid = false ∧
    (validateMnemonic constSha256 []).errors = [VError.emptyPhrase] ∧
    ((validateMnemonic constSha256 []).errors.all
      (fun e => ! e.isWordCountError)) = true := by
  decide

/-- C6 (amended): for every phrase that is nonempty after trimming and
whose whitespace-split word count is not in {12,15,18,21,24},
`validateMnemonic` rejects it (`isValid = false`) with the word-count error
reporting that count. -/
theorem validate_wordcount_error (sha256 : List Bool → List Bool)
    (m : List Char) (hne : trimChars m ≠ [])
    (hcount : (wsTokens (trimChars m)).length ∉ validWordCounts) :
    (validateMnemonic sha256 m).isValid = false ∧
    VError.invalidWordCount (wsTokens (trimChars m)).length ∈
      (validateMnemonic sha256 m).errors := by
  simp only [validateMnemonic]
  rw [if_neg hne, if_neg hcount]
  simp only [List.singleton_append]
  rw [if_pos (by simp)]
  exact ⟨rfl, List.mem_cons_self _ _⟩

/-- Witness for C6 (amended) at the 3-word phrase
"abandon abandon abandon". -/
theorem validate_wordcount_error_witness :
    (trimChars ("abandon abandon abandon").data ≠ []) ∧
    ((wsTokens (trimChars ("abandon abandon abandon").data)).length ∉
      validWordCounts) ∧
    ((validateMnemonic constSha256 ("abandon abandon abandon").data).isValid
      = false ∧
    VError.invalidWordCount
      (wsTokens (trimChars ("abandon abandon abandon").data)).length ∈
      (validateMnemonic constSha256 ("abandon abandon abandon").data).errors) :=
  ⟨by decide, by decide,
    validate_wordcount_error constSha256 ("abandon abandon abandon").data
      (by decide) (by decide)⟩

/-- C7: when the master key is first created and persisted, its storage
entry under `ENCRYPTION_KEY_ID` is written with `encrypt = false` (plain
payload) and `requireAuthentication = true`; no other entry is touched; and
every subsequent `getOrCreateMasterKey` call returns the already-stored key
with the store unchanged, rather than generating a new one. -/
theorem masterKey_entry_flags (ksDec ksEnc : List Char → List Char)
    (now freshKey : List Char) (st : Store)
    (habsent : st (storageKey ENCRYPTION_KEY_ID) = none)
    (hfresh : freshKey ≠ []) :
    ∃ st',
      getOrCreateMasterKey ksDec ksEnc now true freshKey st =
        some (freshKey, st') ∧
      st' (storageKey ENCRYPTION_KEY_ID) =
        some { payload := .plain freshKey, timestamp := now,
               version := "1.0".data, requireAuth := true } ∧
      (∀ k, k ≠ storageKey ENCRYPTION_KEY_ID → st' k = st k) ∧
      (∀ freshKey2 now2 ok2,
        getOrCreateMasterKey ksDec ksEnc now2 ok2 freshKey2 st' =
          some (freshKey, st')) := by
  refine ⟨fun k =>
    if k = storageKey ENCRYPTION_KEY_ID then
      some { payload := .plain freshKey, timestamp := now,
             version := "1.0".data, requireAuth := true }
    else st k, ?_, ?_, ?_, ?_⟩
  · unfold getOrCreateMasterKey retrieveSecure
    rw [habsent]
    rfl
  · simp
  · intro k hk; simp [hk]
  · intro freshKey2 now2 ok2
    unfold getOrCreateMasterKey retrieveSecure
    simp [hfresh]

/-- Witness for C7: empty store, fresh key "k". -/
theorem masterKey_entry_flags_witness :
    ((fun _ => none : Store) (storageKey ENCRYPTION_KEY_ID) = none) ∧
    (['k'] ≠ ([] : List Char)) ∧
    (∃ st',
      getOrCreateMasterKey id id [] true ['k'] (fun _ => none) =
        some (['k'], st') ∧
      st' (storageKey ENCRYPTION_KEY_ID) =
        some { payload := .plain ['k'], timestamp := [],
               version := "1.0".data, requireAuth := true } ∧
      (∀ k, k ≠ storageKey ENCRYPTION_KEY_ID → st' k = (fun _ => none : Store) k) ∧
      (∀ freshKey2 now2 ok2,
        getOrCreateMasterKey id id now2 ok2 freshKey2 st' =
          some (['k'], st'))) :=
  ⟨rfl, by decide,
    masterKey_entry_flags id id [] ['k'] (fun _ => none) rfl (by decide)⟩

/-- C8 counterexample: with the underlying keystore write failing,
`createWallet` returns exactly the same `WalletInfo` as on success —
no `StorageError` reaches the caller and nothing marks the wallet as
unpersisted, so the claimed caller-visible failure signal does not exist. -/
theorem createWallet_storage_error_counterexample :
    (createWallet (fun _ => []) id [] false (fun _ => none)
      { mnemonic := ['m'], strength := 128, wordCount := 12 }
      { address := ['a'], publicKey := ['p'] }).1 =
    (createWallet (fun _ => []) id [] true (fun _ => none)
      { mnemonic := ['m'], strength := 128, wordCount := 12 }
      { address := ['a'], publicKey := ['p'] }).1 ∧
    (createWallet (fun _ => []) id [] false (fun _ => none)
      { mnemonic := ['m'], strength := 128, wordCount := 12 }
      { address := ['a'], publicKey := ['p'] }).1 =
      { address := ['a'], mnemonic := ['m'] } :=
  ⟨rfl, rfl⟩

/-- C8 (amended): when persistence fails during `createWallet`, the
in-memory `{ address, mnemonic }` is still returned to the caller, but the
failure is swallowed (only logged): the store is left unchanged and the
returned value is identical to the success case — no `StorageError` and no
unpersisted flag are surfaced. -/
theorem createWallet_unpersisted (serialize : WalletRecord → List Char)
    (ksEnc : List Char → List Char) (now : List Char) (st : Store)
    (mi : MnemonicInfo) (acct : AptosAccount) :
    (createWallet serialize ksEnc now false st mi acct).1 =
      { address := acct.address, mnemonic := mi.mnemonic } ∧
    (createWallet serialize ksEnc now false st mi acct).2 = st ∧
    (createWallet serialize ksEnc now true st mi acct).1 =
      (createWallet serialize ksEnc now false st mi acct).1 :=
  ⟨rfl, rfl, rfl⟩

/-- C9: `deleteStoredWallet a` removes exactly the entry stored under the
namespaced key for `a`: afterwards `hasStoredWallet a` is `false`, every
other key — in particular the master key's entry — is unchanged. -/
theorem deleteWallet_frame (st : Store) (a : List Char) :
    hasStoredWallet (deleteStoredWallet st a) a = false ∧
    (∀ k, k ≠ storageKey ("wallet_".data ++ a) →
      deleteStoredWallet st a k = st k) ∧
    deleteStoredWallet st a (storageKey ENCRYPTION_KEY_ID) =
      st (storageKey ENCRYPTION_KEY_ID) := by
  have hkeys : storageKey ("wallet_".data ++ a) ≠ storageKey ENCRYPTION_KEY_ID := by
    intro h
    have h2 := congrArg (List.drop STORAGE_PREFIX.length) h
    rw [storageKey, storageKey, List.drop_left, List.drop_left] at h2
    have h3 := congrArg List.head? h2
    rw [List.head?_append_of_ne_nil _ (by decide)] at h3
    exact absurd h3 (by decide)
  refine ⟨?_, ?_, ?_⟩
  · unfold hasStoredWallet existsKey deleteStoredWallet deleteSecure
    simp
  · intro k hk
    unfold deleteStoredWallet deleteSecure
    rw [if_neg hk]
  · unfold deleteStoredWallet deleteSecure
    rw [if_neg (Ne.symm hkeys)]

theorem sampleMnemonic_valid :
    (validateMnemonic constSha256 sampleMnemonic).isValid = true := by
  have h := (generate_valid_core constSha256 128 (List.replicate 128 false) 4
    (constSha256_length _) (by rw [List.length_replicate]) (by norm_num)
    (by norm_num) (by decide)).2
  show (validateMnemonic constSha256
    (generateMnemonic constSha256 128 (List.replicate 128 false)).mnemonic).isValid = true
  rw [h]

/-- C1 (evaluation of the code at the failing input): the wallet returned by
`recoverWallet` carries the address of the **freshly generated random**
account, not an address derived from the mnemonic; hence two recoveries of
the same valid mnemonic whose random draws have different addresses return
different wallets — recovery is not deterministic. -/
theorem recoverWallet_random_account (sha256 : List Bool → List Bool)
    (serialize : WalletRecord → List Char) (ksEnc : List Char → List Char)
    (now : List Char) (ok : Bool) (st : Store) (m : List Char)
    (acct1 acct2 : AptosAccount)
    (hval : (validateMnemonic sha256 m).isValid = true)
    (hdiff : acct1.address ≠ acct2.address) :
    (recoverWallet sha256 serialize ksEnc now ok st m acct1).1.wallet =
      some { address := acct1.address, mnemonic := normalizeMnemonic m } ∧
    (recoverWallet sha256 serialize ksEnc now ok st m acct2).1.wallet =
      some { address := acct2.address, mnemonic := normalizeMnemonic m } ∧
    (recoverWallet sha256 serialize ksEnc now ok st m acct1).1.wallet ≠
      (recoverWallet sha256 serialize ksEnc now ok st m acct2).1.wallet := by
  have h1 : (recoverWallet sha256 serialize ksEnc now ok st m acct1).1.wallet =
      some { address := acct1.address, mnemonic := normalizeMnemonic m } := by
    simp [recoverWallet, hval]
  have h2 : (recoverWallet sha256 serialize ksEnc now ok st m acct2).1.wallet =
      some { address := acct2.address, mnemonic := normalizeMnemonic m } := by
    simp [recoverWallet, hval]
  refine ⟨h1, h2, ?_⟩
  rw [h1, h2]
  simp [hdiff]

/-- Witness for C1's evaluation theorem: a concrete generated (hence valid)
mnemonic, recovered twice with two random accounts of distinct addresses. -/
theorem recoverWallet_random_account_witness :
    ((validateMnemonic constSha256 sampleMnemonic).isValid = true) ∧
    ((⟨['1'], ['p']⟩ : AptosAccount).address ≠
      (⟨['2'], ['q']⟩ : AptosAccount).address) ∧
    ((recoverWallet constSha256 (fun _ => []) id [] true (fun _ => none)
        sampleMnemonic ⟨['1'], ['p']⟩).1.wallet =
      some { address := ['1'], mnemonic := normalizeMnemonic sampleMnemonic } ∧
    (recoverWallet constSha256 (fun _ => []) id [] true (fun _ => none)
        sampleMnemonic ⟨['2'], ['q']⟩).1.wallet =
      some { address := ['2'], mnemonic := normalizeMnemonic sampleMnemonic } ∧
    (recoverWallet constSha256 (fun _ => []) id [] true (fun _ => none)
        sampleMnemonic ⟨['1'], ['p']⟩).1.wallet ≠
      (recoverWallet constSha256 (fun _ => []) id [] true (fun _ => none)
        sampleMnemonic ⟨['2'], ['q']⟩).1.wallet) :=
  ⟨sampleMnemonic_valid, by decide,
    recoverWallet_random_account constSha256 (fun _ => []) id [] true
      (fun _ => none) sampleMnemonic ⟨['1'], ['p']⟩ ⟨['2'], ['q']⟩
      sampleMnemonic_valid (by decide)⟩

theorem xorBytes_cancel (a b : List Nat) (h : a.length = b.length) :
    xorBytes a (xorBytes a b) = b := by
  induction a generalizing b with
  | nil =>
    cases b with
    | nil => rfl
    | cons y ys => simp at h
  | cons x xs ih =>
    cases b with
    | nil => simp at h
    | cons y ys =>
      simp only [xorBytes, List.zipWith_cons_cons] at *
      rw [Nat.xor_cancel_left, ih ys (by simpa using h)]

theorem length_xorBytes (a b : List Nat) :
    (xorBytes a b).length = min a.length b.length := by
  simp [xorBytes]

theorem cbcDecrypt_cbcEncrypt (E D : List Nat → List Nat → List Nat)
    (key : List Nat)
    (hED : ∀ b, b.length = 16 → D key (E key b) = b)
    (hElen : ∀ b, b.length = 16 → (E key b).length = 16) :
    ∀ (blocks : List (List Nat)) (prev : List Nat), prev.length = 16 →
      (∀ b ∈ blocks, b.length = 16) →
      cbcDecrypt D key prev (cbcEncrypt E key prev blocks) = blocks := by
  intro blocks
  induction blocks with
  | nil => intro prev _ _; rfl
  | cons b bs ih =>
    intro prev hprev hall
    have hb : b.length = 16 := hall b (by simp)
    have hxor : (xorBytes prev b).length = 16 := by
      rw [length_xorBytes, hprev, hb]; omega
    simp only [cbcEncrypt, cbcDecrypt]
    rw [hED _ hxor, xorBytes_cancel prev b (by omega)]
    rw [ih (E key (xorBytes prev b)) (hElen _ hxor)
      (fun x hx => hall x (by simp [hx]))]

theorem getLast?_replicate_succ (p : Nat) (x : Nat) :
    (List.replicate (p + 1) x).getLast? = some x := by
  rw [List.replicate_succ']
  exact List.getLast?_concat _

theorem pkcs7unpad_pad (d : List Nat) : pkcs7unpad (pkcs7pad d) = d := by
  have hp : 1 ≤ 16 - d.length % 16 ∧ 16 - d.length % 16 ≤ 16 := by omega
  set p := 16 - d.length % 16 with hpdef
  obtain ⟨q, hq⟩ : ∃ q, p = q + 1 := ⟨p - 1, by omega⟩
  unfold pkcs7unpad pkcs7pad
  rw [← hpdef, hq]
  rw [List.getLast?_append_of_ne_nil d (by simp)]
  rw [getLast?_replicate_succ]
  simp only [Option.getD_some, List.length_append, List.length_replicate]
  have : d.length + (q + 1) - (q + 1) = d.length := by omega
  rw [this, List.take_left]

theorem pkcs7pad_length (d : List Nat) :
    (pkcs7pad d).length = 16 * (d.length / 16 + 1) := by
  unfold pkcs7pad
  simp only [List.length_append, List.length_replicate]
  omega

/-- C10: under the library contracts — the block cipher decrypts what it
encrypts and preserves the block size, UTF-8 and JSON decoding invert
their encoders on this value, the serialized value is nonempty, and the
fresh iv is one block wide with a nonempty salt — `decryptData` applied to
the record produced by `encryptData` on a non-null value `v` under the same
master key succeeds and returns `v`. -/
theorem encrypt_decrypt_roundtrip {α : Type}
    (kdf : List Char → List Nat → List Nat)
    (E D : List Nat → List Nat → List Nat)
    (utf8Enc : List Char → List Nat) (utf8Dec : List Nat → Option (List Char))
    (stringify : α → List Char) (parse : List Char → Option α)
    (masterKey : List Char) (v : α) (salt iv : List Nat)
    (hED : ∀ b, b.length = 16 →
      D (kdf masterKey salt) (E (kdf masterKey salt) b) = b)
    (hElen : ∀ b, b.length = 16 →
      (E (kdf masterKey salt) b).length = 16)
    (hutf : utf8Dec (utf8Enc (stringify v)) = some (stringify v))
    (hparse : parse (stringify v) = some v)
    (hsv : stringify v ≠ [])
    (hiv : iv.length = 16) (hsalt : salt ≠ []) :
    encryptData kdf E utf8Enc stringify masterKey (some v) salt iv =
      .ok (encryptRecord kdf E utf8Enc stringify masterKey v salt iv) ∧
    decryptData kdf D utf8Dec parse masterKey
      (encryptRecord kdf E utf8Enc stringify masterKey v salt iv) =
      .ok v := by
  refine ⟨rfl, ?_⟩
  set bytes := utf8Enc (stringify v) with hbytes
  have hpadlen : (pkcs7pad bytes).length = 16 * (bytes.length / 16 + 1) :=
    pkcs7pad_length bytes
  have hblocks : ∀ c ∈ chunks 16 (pkcs7pad bytes), c.length = 16 :=
    length_mem_chunks 16 (by norm_num) (bytes.length / 16 + 1) _ hpadlen
  have hnblocks : (chunks 16 (pkcs7pad bytes)).length = bytes.length / 16 + 1 :=
    length_chunks 16 (by norm_num) (bytes.length / 16 + 1) _ hpadlen
  have hbne : chunks 16 (pkcs7pad bytes) ≠ [] := by
    intro h; rw [h] at hnblocks; simp at hnblocks
  have hctne : cbcEncrypt E (kdf masterKey salt) iv
      (chunks 16 (pkcs7pad bytes)) ≠ [] := by
    obtain ⟨b, bs, hbs⟩ := List.exists_cons_of_ne_nil hbne
    rw [hbs]; simp [cbcEncrypt]
  have hivne : iv ≠ [] := by intro h; rw [h] at hiv; simp at hiv
  unfold decryptData
  rw [if_neg (by simp [encryptRecord, hctne, hivne, hsalt])]
  simp only [encryptRecord]
  rw [cbcDecrypt_cbcEncrypt E D (kdf masterKey salt) hED hElen
    (chunks 16 (pkcs7pad bytes)) iv hiv hblocks]
  rw [flatten_chunks, pkcs7unpad_pad, hbytes]
  simp only [hutf, hsv, hparse, ite_false, if_false]

/-- Witness for C10 with the toy primitives, `v = true`, salt `[0]` and the
all-zero 16-byte iv. -/
theorem encrypt_decrypt_roundtrip_witness :
    (∀ b : List Nat, b.length = 16 →
      toyCipher (toyKdf [] [0]) (toyCipher (toyKdf [] [0]) b) = b) ∧
    (∀ b : List Nat, b.length = 16 →
      (toyCipher (toyKdf [] [0]) b).length = 16) ∧
    toyUtf8Dec (toyUtf8Enc (toyStringify true)) = some (toyStringify true) ∧
    toyParse (toyStringify true) = some true ∧
    toyStringify true ≠ [] ∧
    (List.replicate 16 0 : List Nat).length = 16 ∧
    ([0] : List Nat) ≠ [] ∧
    (encryptData toyKdf toyCipher toyUtf8Enc toyStringify [] (some true)
        [0] (List.replicate 16 0) =
      .ok (encryptRecord toyKdf toyCipher toyUtf8Enc toyStringify [] true
        [0] (List.replicate 16 0)) ∧
    decryptData toyKdf toyCipher toyUtf8Dec toyParse []
      (encryptRecord toyKdf toyCipher toyUtf8Enc toyStringify [] true
        [0] (List.replicate 16 0)) = .ok true) :=
  ⟨fun _ _ => rfl, fun _ h => h, rfl, rfl, by decide, by decide, by decide,
    encrypt_decrypt_roundtrip toyKdf toyCipher toyCipher toyUtf8Enc
      toyUtf8Dec toyStringify toyParse [] true [0] (List.replicate 16 0)
      (fun _ _ => rfl) (fun _ h => h) rfl rfl (by decide) (by decide)
      (by decide)⟩

theorem xorBytes_cancel_le (a : List Nat) :
    ∀ b : List Nat, b.length ≤ a.length → xorBytes a (xorBytes a b) = b := by
  induction a with
  | nil =>
    intro b hb
    have : b = [] := List.eq_nil_of_length_eq_zero (by simpa using hb)
    subst this; rfl
  | cons x xs ih =>
    intro b hb
    cases b with
    | nil => rfl
    | cons y ys =>
      simp only [xorBytes, List.zipWith_cons_cons]
      rw [Nat.xor_cancel_left]
      have := ih ys (by simpa using hb)
      simp only [xorBytes] at this
      rw [this]

theorem length_toyCipherXor (k b : List Nat) :
    (toyCipherXor k b).length = b.length := by
  simp only [toyCipherXor, xorBytes, List.length_zipWith, List.length_append,
    List.length_replicate]
  omega

theorem toyCipherXor_injective : ∀ k, Function.Injective (toyCipherXor k) := by
  intro k a b h
  have hlen : a.length = b.length := by
    have h2 := congrArg List.length h
    rwa [length_toyCipherXor, length_toyCipherXor] at h2
  have hpa : (k ++ List.replicate (a.length - k.length) 0).length ≥ a.length := by
    simp only [List.length_append, List.length_replicate]; omega
  have ha : xorBytes (k ++ List.replicate (a.length - k.length) 0)
      (toyCipherXor k a) = a :=
    xorBytes_cancel_le _ a (by omega)
  have hb : xorBytes (k ++ List.replicate (b.length - k.length) 0)
      (toyCipherXor k b) = b :=
    xorBytes_cancel_le _ b
      (by simp only [List.length_append, List.length_replicate]; omega)
  calc a = xorBytes (k ++ List.replicate (a.length - k.length) 0)
        (toyCipherXor k a) := ha.symm
    _ = xorBytes (k ++ List.replicate (b.length - k.length) 0)
        (toyCipherXor k b) := by rw [h, hlen]
    _ = b := hb

/-- C4 counterexample: the claim as stated — two calls drawing fresh
(distinct) salts and IVs always yield distinct ciphertexts — fails in the
envelope-cipher model even under every width constraint of the real
execution: the salts and IVs are 16 bytes (as `WordArray.random(128/8)`
draws them), the derived keys are always 32 bytes (as PBKDF2 yields), and
the block cipher is injective per key and preserves the 16-byte block size.
With those contracts instantiated by concrete valid primitives (a 32-byte
key derived deterministically from the salt, a xor-with-key permutation),
two calls with different 16-byte salts **and** different 16-byte IVs
produce the same ciphertext: the key difference induced by the salts
cancels the IV difference in the first CBC block. -/
theorem encrypt_distinct_ciphertexts_counterexample :
    ¬ (∀ (kdf : List Char → List Nat → List Nat)
        (E : List Nat → List Nat → List Nat)
        (utf8Enc : List Char → List Nat) (stringify : Bool → List Char)
        (masterKey : List Char) (v : Bool) (s1 i1 s2 i2 : List Nat),
        (∀ k, Function.Injective (E k)) →
        (∀ k b, b.length = 16 → (E k b).length = 16) →
        (∀ mk s, (kdf mk s).length = 32) →
        s1.length = 16 → i1.length = 16 → s2.length = 16 → i2.length = 16 →
        s1 ≠ s2 → i1 ≠ i2 →
        (encryptRecord kdf E utf8Enc stringify masterKey v s1 i1).data ≠
          (encryptRecord kdf E utf8Enc stringify masterKey v s2 i2).data) := by
  intro h
  have hone : ∀ c : List Nat, c.length = 16 → chunks 16 c = [c] := by
    intro c hc
    have h2 := chunks_append 16 c [] hc (by norm_num)
    simpa [chunks_nil] using h2
  have heq : (encryptRecord (fun _ s => (s ++ s ++ List.replicate 32 0).take 32)
      toyCipherXor toyUtf8Enc toyStringify [] true
      (List.replicate 16 0) (List.replicate 16 0)).data =
      (encryptRecord (fun _ s => (s ++ s ++ List.replicate 32 0).take 32)
        toyCipherXor toyUtf8Enc toyStringify [] true
        (1 :: List.replicate 15 0) (1 :: List.replicate 15 0)).data := by
    simp only [encryptRecord]
    rw [hone _ (by decide)]
    decide
  exact h (fun _ s => (s ++ s ++ List.replicate 32 0).take 32) toyCipherXor
    toyUtf8Enc toyStringify [] true
    (List.replicate 16 0) (List.replicate 16 0)
    (1 :: List.replicate 15 0) (1 :: List.replicate 15 0)
    toyCipherXor_injective
    (fun _ _ hb => by rwa [length_toyCipherXor])
    (fun _ s => by
      simp only [List.length_take, List.length_append, List.length_replicate]
      omega)
    (by decide) (by decide) (by decide) (by decide) (by decide) (by decide)
    heq

theorem xorBytes_right_cancel :
    ∀ (c a b : List Nat), a.length = c.length → b.length = c.length →
      xorBytes a c = xorBytes b c → a = b := by
  intro c
  induction c with
  | nil =>
    intro a b ha hb _
    rw [List.eq_nil_of_length_eq_zero ha, List.eq_nil_of_length_eq_zero hb]
  | cons z zs ih =>
    intro a b ha hb h
    cases a with
    | nil => simp at ha
    | cons x xs =>
      cases b with
      | nil => simp at hb
      | cons y ys =>
        simp only [xorBytes, List.zipWith_cons_cons, List.cons.injEq] at h
        obtain ⟨h1, h2⟩ := h
        have hx : x = y := Nat.xor_left_injective h1
        rw [hx, ih xs ys (by simpa using ha) (by simpa using hb) h2]

/-- C4 (amended): two encryptions of the same plaintext under the same
master key whose calls derive the same record key (equal salt draws) but
draw different 16-byte IVs produce different ciphertexts, provided the
block cipher is injective per key; when the salt draws differ as well, only
the full records `{ciphertext, iv, salt}` are guaranteed distinct. -/
theorem encrypt_distinct_ciphertexts {α : Type}
    (kdf : List Char → List Nat → List Nat)
    (E : List Nat → List Nat → List Nat)
    (utf8Enc : List Char → List Nat) (stringify : α → List Char)
    (masterKey : List Char) (v : α) (salt iv1 iv2 : List Nat)
    (hInj : Function.Injective (E (kdf masterKey salt)))
    (hiv1 : iv1.length = 16) (hiv2 : iv2.length = 16) (hne : iv1 ≠ iv2) :
    (encryptRecord kdf E utf8Enc stringify masterKey v salt iv1).data ≠
      (encryptRecord kdf E utf8Enc stringify masterKey v salt iv2).data := by
  intro h
  set bytes := utf8Enc (stringify v) with hbytes
  have hpadlen : (pkcs7pad bytes).length = 16 * (bytes.length / 16 + 1) :=
    pkcs7pad_length bytes
  have hblocks : ∀ c ∈ chunks 16 (pkcs7pad bytes), c.length = 16 :=
    length_mem_chunks 16 (by norm_num) (bytes.length / 16 + 1) _ hpadlen
  have hnblocks : (chunks 16 (pkcs7pad bytes)).length =
      bytes.length / 16 + 1 :=
    length_chunks 16 (by norm_num) (bytes.length / 16 + 1) _ hpadlen
  have hbne : chunks 16 (pkcs7pad bytes) ≠ [] := by
    intro hx; rw [hx] at hnblocks; simp at hnblocks
  obtain ⟨b0, bs, hbs⟩ := List.exists_cons_of_ne_nil hbne
  have hb0 : b0.length = 16 := hblocks b0 (by rw [hbs]; simp)
  simp only [encryptRecord, ← hbytes, hbs, cbcEncrypt] at h
  injection h with hheads htails
  have hxor : xorBytes iv1 b0 = xorBytes iv2 b0 := hInj hheads
  exact hne (xorBytes_right_cancel b0 iv1 iv2 (by omega) (by omega) hxor)

/-- Witness for C4 (amended) with the identity toy cipher, equal salts and
two distinct 16-byte IVs. -/
theorem encrypt_distinct_ciphertexts_witness :
    Function.Injective (toyCipher (toyKdf [] [])) ∧
    (List.replicate 16 0 : List Nat).length = 16 ∧
    (1 :: List.replicate 15 0 : List Nat).length = 16 ∧
    (List.replicate 16 0 : List Nat) ≠ (1 :: List.replicate 15 0) ∧
    ((encryptRecord toyKdf toyCipher toyUtf8Enc toyStringify [] true []
        (List.replicate 16 0)).data ≠
      (encryptRecord toyKdf toyCipher toyUtf8Enc toyStringify [] true []
        (1 :: List.replicate 15 0)).data) :=
  ⟨fun _ _ h => h, by decide, by decide, by decide,
    encrypt_distinct_ciphertexts toyKdf toyCipher toyUtf8Enc toyStringify
      [] true [] (List.replicate 16 0) (1 :: List.replicate 15 0)
      (fun _ _ h => h) (by decide) (by decide) (by decide)⟩

end Wallet
